import Mathlib

/-!
Verification development for the `color-rs` color-space library
(`src/color_space/cmyk.rs`, `src/color_space/hsv.rs`,
`src/color_space/xyz.rs`).

The Rust code is shallowly embedded over exact rationals: every `f32`
value flowing through the conversion formulas is modelled as a `ℚ`
(the usual exact-arithmetic abstraction of float code), `u8` channels
are `Fin 256`, and the packed `u32` encoding is a natural number.
Rust's `%` on floats (remainder with the dividend's sign) is
`rustRem`, and the saturating truncation `as u8` is `f32toU8`.
Non-finite `f32` inputs, which only matter for `Hsv::set_hue`'s
`assert!(hue.is_finite())`, are modelled by the `F32` sum type, and
the assertion by an `Option` result (`none` = panic).

The bodies of `utility.rs` and of the `Rgb`/`Hsl` types are not part
of the excerpt; the definitions marked `Modelled from the spec:`
stand in for them, following the specification's description.
-/

namespace ColorRs

/-- Modelled from the spec: `utility.rs` is not in the excerpt; the spec
describes `nearly_equal` as float equality within a fixed small epsilon.
We use the f32 machine epsilon `2^-23`. Every branch decision in the
sources compares quantities that are multiples of `1/255`, so any
epsilon below `1/255` yields the same branches. -/
def epsF32 : ℚ := 1 / 8388608

/-- Modelled from the spec: `nearly_equal(a, b)` — float equality within
a fixed small epsilon (used to special-case degenerate conversions). -/
def nearlyEqual (a b : ℚ) : Bool := |a - b| < epsF32

/-- Modelled from the spec: `clamped(v, lo, hi)` returns `v` restricted
to `[lo, hi]`; total function, no failure. -/
def clamped (v lo hi : ℚ) : ℚ := if v < lo then lo else if hi < v then hi else v

/-- Truncation of a rational toward zero (the rounding used by Rust's
float-to-integer casts and by the `%` remainder on floats). -/
def ratTrunc (q : ℚ) : ℤ := if 0 ≤ q then ⌊q⌋ else ⌈q⌉

/-- Rust's `%` on floats: the remainder `a - b * trunc(a / b)`, whose
sign follows the dividend `a`. -/
def rustRem (a b : ℚ) : ℚ := a - b * (ratTrunc (a / b) : ℚ)

/-- Rust's saturating cast `as u8` applied to a (finite) float:
truncation toward zero, clamped into `0..=255`. -/
def f32toU8 (q : ℚ) : Fin 256 :=
  if q < 0 then ⟨0, by omega⟩ else ⟨min 255 (Int.toNat ⌊q⌋), by omega⟩

/-- Modelled from the spec: the `Rgb` hub type (its body is external to
the excerpt) — three unsigned 8-bit channels `r`, `g`, `b`. -/
structure Rgb where
  r : Fin 256
  g : Fin 256
  b : Fin 256
deriving DecidableEq

/-- Modelled from the spec: the red channel of `Rgb.ratios()` — the
channel value divided by 255 to obtain a `[0,1]` float. -/
def Rgb.rr (c : Rgb) : ℚ := (c.r.val : ℚ) / 255

/-- Modelled from the spec: the green channel of `Rgb.ratios()`. -/
def Rgb.rg (c : Rgb) : ℚ := (c.g.val : ℚ) / 255

/-- Modelled from the spec: the blue channel of `Rgb.ratios()`. -/
def Rgb.rb (c : Rgb) : ℚ := (c.b.val : ℚ) / 255

/-- The encoded CMYK color (`cmyk.rs`): four unsigned 8-bit components. -/
structure Cmyk where
  c : Fin 256
  m : Fin 256
  y : Fin 256
  k : Fin 256
deriving DecidableEq

/-- The encoded HSV color (`hsv.rs`): hue, saturation, value, each a
(finite) `f32` modelled as `ℚ`. -/
structure Hsv where
  h : ℚ
  s : ℚ
  v : ℚ
deriving DecidableEq

/-- The encoded XYZ color (`xyz.rs`): three `f32` components. -/
structure Xyz where
  x : ℚ
  y : ℚ
  z : ℚ
deriving DecidableEq

/-- Modelled from the spec: the `Hsl` peer type (its body is external to
the excerpt) — hue in degrees, saturation and lightness as ratios. -/
structure Hsl where
  h : ℚ
  s : ℚ
  l : ℚ
deriving DecidableEq

/-- An `f32` value including the non-finite cases, used where the code's
behavior depends on finiteness (`Hsv::set_hue`'s assertion). -/
inductive F32 where
  | val (q : ℚ)
  | nan
  | posInf
  | negInf
deriving DecidableEq

/-- Finiteness test on the `F32` model (Rust `f32::is_finite`). -/
def F32.isFinite : F32 → Bool
  | .val _ => true
  | _ => false

/-- Embeds `Hsv::set_hue` (hsv.rs:173-176) on a finite argument:
`self.h = hue % 360.0`. -/
def Hsv.setHue (color : Hsv) (hue : ℚ) : Hsv := { color with h := rustRem hue 360 }

/-- Embeds `Hsv::set_saturation` (hsv.rs:199-201):
`self.s = clamped(saturation, 0.0, 1.0)`. -/
def Hsv.setSaturation (color : Hsv) (saturation : ℚ) : Hsv :=
  { color with s := clamped saturation 0 1 }

/-- Embeds `Hsv::set_value` (hsv.rs:224-226):
`self.v = clamped(value, 0.0, 1.0)`. -/
def Hsv.setValue (color : Hsv) (value : ℚ) : Hsv :=
  { color with v := clamped value 0 1 }

/-- Embeds `Hsv::new` (hsv.rs:72-78) on a finite hue: starts from the
zero color and applies the three setters in order. -/
def Hsv.newQ (hue saturation value : ℚ) : Hsv :=
  (((Hsv.mk 0 0 0).setHue hue).setSaturation saturation).setValue value

/-- Embeds `Hsv::set_hue` including its `assert!(hue.is_finite())`:
the result is `none` exactly when the assertion fires (a panic). -/
def Hsv.setHueChecked (color : Hsv) (hue : F32) : Option Hsv :=
  match hue with
  | .val q => some (color.setHue q)
  | _ => none

/-- Embeds `Hsv::new` including the finiteness assertion reached through
`set_hue`: `none` models the panic on a non-finite hue. -/
def Hsv.newChecked (hue : F32) (saturation value : ℚ) : Option Hsv :=
  (Hsv.setHueChecked (Hsv.mk 0 0 0) hue).map
    fun c => (c.setSaturation saturation).setValue value

/-- Embeds `Xyz::set_x` (xyz.rs:176-178). -/
def Xyz.setX (color : Xyz) (x : ℚ) : Xyz := { color with x := clamped x 0 1 }

/-- Embeds `Xyz::set_y` (xyz.rs:201-203). -/
def Xyz.setY (color : Xyz) (y : ℚ) : Xyz := { color with y := clamped y 0 1 }

/-- Embeds `Xyz::set_z` (xyz.rs:226-228). -/
def Xyz.setZ (color : Xyz) (z : ℚ) : Xyz := { color with z := clamped z 0 1 }

/-- Embeds `Xyz::new` (xyz.rs:74-80): starts from the zero color and
applies the three setters in order. -/
def Xyz.newQ (x y z : ℚ) : Xyz := (((Xyz.mk 0 0 0).setX x).setY y).setZ z

/-- Embeds `impl From<[f32; 3]> for Xyz` (xyz.rs:389-400): the
components are copied verbatim — no clamping. -/
def xyzFromArr (cs : ℚ × ℚ × ℚ) : Xyz := ⟨cs.1, cs.2.1, cs.2.2⟩

/-- Embeds `impl From<Rgb> for Xyz` (xyz.rs:430-443): the fixed sRGB D65
matrix applied to the ratio form, no clamping. -/
def xyzFromRgb (rgb : Rgb) : Xyz :=
  ⟨rgb.rr * 0.4124564 + rgb.rg * 0.3575761 + rgb.rb * 0.1804375,
   rgb.rr * 0.2126729 + rgb.rg * 0.7151522 + rgb.rb * 0.0721750,
   rgb.rr * 0.0193339 + rgb.rg * 0.1191920 + rgb.rb * 0.9503041⟩

/-- Embeds the fold in `Cmyk::from<Rgb>` (cmyk.rs:592-596):
`fold(ratios[0], |max, &x| if x > max {x} else {max})`. -/
def cmykMaxFold (init : ℚ) (l : List ℚ) : ℚ :=
  l.foldl (fun mx x => if x > mx then x else mx) init

/-- Embeds `impl From<Rgb> for Cmyk` (cmyk.rs:585-616): degenerate black
branch on `nearly_equal(max, 0.0)`, otherwise the subtractive formula
with each value packed through `(v * 255.0 + 0.5) as u8`. -/
def cmykFromRgb (rgb : Rgb) : Cmyk :=
  let mx := cmykMaxFold rgb.rr [rgb.rr, rgb.rg, rgb.rb]
  if nearlyEqual mx 0 then ⟨0, 0, 0, 255⟩
  else
    let kn := 1 - mx
    let cn := (1 - rgb.rr - kn) / mx
    let mn := (1 - rgb.rg - kn) / mx
    let yn := (1 - rgb.rb - kn) / mx
    ⟨f32toU8 (cn * 255 + 0.5), f32toU8 (mn * 255 + 0.5),
     f32toU8 (yn * 255 + 0.5), f32toU8 (kn * 255 + 0.5)⟩

/-- Embeds the accumulator step of the fold in `Hsv::from<Rgb>`
(hsv.rs:432-440): the Rust `match (x < min, x > max)` with arms
`(true, false)`, `(false, true)` and a catch-all. -/
def hsvFoldStep (acc : ℚ × ℚ × ℕ × ℕ) (x : ℚ) : ℚ × ℚ × ℕ × ℕ :=
  let mn := acc.1
  let mx := acc.2.1
  let i := acc.2.2.1
  let c := acc.2.2.2
  if x < mn ∧ ¬ x > mx then (x, mx, i, c + 1)
  else if ¬ x < mn ∧ x > mx then (mn, x, c, c + 1)
  else (mn, mx, i, c + 1)

/-- Embeds `impl From<Rgb> for Hsv` (hsv.rs:425-469): the min/max/index
fold, the achromatic branch on `nearly_equal(delta, 0.0)`, the
saturation guard on `nearly_equal(max, 0.0)`, the 60-degree sector
selection with `% 6.0` on the red sector only, and the final
`Hsv::new(h, s, max)`. -/
def hsvFromRgb (rgb : Rgb) : Hsv :=
  let acc := List.foldl hsvFoldStep (rgb.rr, rgb.rr, 0, 0) [rgb.rr, rgb.rg, rgb.rb]
  let mn := acc.1
  let mx := acc.2.1
  let maxIdx := acc.2.2.1
  let delta := mx - mn
  if nearlyEqual delta 0 then ⟨0, 0, mx⟩
  else
    let s := if nearlyEqual mx 0 then 0 else delta / mx
    let h := 60 * (if maxIdx = 0 then rustRem ((rgb.rg - rgb.rb) / delta) 6
                   else if maxIdx = 1 then (rgb.rb - rgb.rr) / delta + 2
                   else (rgb.rr - rgb.rg) / delta + 4)
    Hsv.newQ h s mx

/-- Embeds `Cmyk::hex` (cmyk.rs:381-386):
`(c << 24) | (m << 16) | (y << 8) | k`. -/
def Cmyk.hex (v : Cmyk) : ℕ :=
  ((v.c.val <<< 24 ||| v.m.val <<< 16) ||| v.y.val <<< 8) ||| v.k.val

/-- Embeds `impl From<u32> for Cmyk` (cmyk.rs:540-552): each field is
masked, shifted, and cast `as u8` (the trailing `% 256`). -/
def cmykFromU32 (u : ℕ) : Cmyk :=
  ⟨⟨((u &&& 0xFF000000) >>> 24) % 256, Nat.mod_lt _ (by norm_num)⟩,
   ⟨((u &&& 0x00FF0000) >>> 16) % 256, Nat.mod_lt _ (by norm_num)⟩,
   ⟨((u &&& 0x0000FF00) >>> 8) % 256, Nat.mod_lt _ (by norm_num)⟩,
   ⟨(u &&& 0x000000FF) % 256, Nat.mod_lt _ (by norm_num)⟩⟩

/-- Embeds `Hsv::distance` (hsv.rs:360-380), parameterized by the
transcendental primitives: `sn`/`cn` stand for `f32::sin`/`f32::cos`
(the components of `sin_cos`) and `sq` for `f32::sqrt`. The code maps
each color to `(2 v sin h, 2 v cos h)` plus the saturation difference
and divides the square-rooted sum of squares by `sqrt 6`. -/
def hsvDistanceWith (sn cn sq : ℚ → ℚ) (a b : Hsv) : ℚ :=
  let shx := sn a.h
  let shy := cn a.h
  let ehx := sn b.h
  let ehy := cn b.h
  let csx := a.v * shx * 2
  let csy := a.v * shy * 2
  let cex := b.v * ehx * 2
  let cey := b.v * ehy * 2
  let sd := a.s - b.s
  let x := csx - cex
  let y := csy - cey
  sq (sd * sd + x * x + y * y) / sq 6

/-- Modelled from the spec: `Rgb::from<Cmyk>` lives with the external
`Rgb` body; the spec fixes only that Cmyk converts to Rgb directly.
The standard subtractive inverse `channel = (1-c)(1-k)` (scaled with
the same round-half-up packing) stands in for it; the routing claims
are independent of its exact form. -/
def rgbFromCmyk (v : Cmyk) : Rgb :=
  let cr := (v.c.val : ℚ) / 255
  let mr := (v.m.val : ℚ) / 255
  let yr := (v.y.val : ℚ) / 255
  let kr := (v.k.val : ℚ) / 255
  ⟨f32toU8 ((1 - cr) * (1 - kr) * 255 + 0.5),
   f32toU8 ((1 - mr) * (1 - kr) * 255 + 0.5),
   f32toU8 ((1 - yr) * (1 - kr) * 255 + 0.5)⟩

/-- Sector selection shared by the modelled `Rgb::from<Hsl>` and
`Rgb::from<Hsv>`: the classic chroma/intermediate decomposition. -/
def rgbSector (hp c x : ℚ) : ℚ × ℚ × ℚ :=
  if hp < 1 then (c, x, 0)
  else if hp < 2 then (x, c, 0)
  else if hp < 3 then (0, c, x)
  else if hp < 4 then (0, x, c)
  else if hp < 5 then (x, 0, c)
  else (c, 0, x)

/-- Modelled from the spec: `Rgb::from<Hsl>` lives with the external
`Rgb` body; the standard hexcone formula stands in for it; the routing
claims are independent of its exact form. -/
def rgbFromHsl (v : Hsl) : Rgb :=
  let c := (1 - |2 * v.l - 1|) * v.s
  let hp := rustRem v.h 360 / 60
  let x := c * (1 - |rustRem hp 2 - 1|)
  let base := rgbSector hp c x
  let m := v.l - c / 2
  ⟨f32toU8 ((base.1 + m) * 255 + 0.5),
   f32toU8 ((base.2.1 + m) * 255 + 0.5),
   f32toU8 ((base.2.2 + m) * 255 + 0.5)⟩

/-- Modelled from the spec: `Rgb::from<Hsv>` lives with the external
`Rgb` body; the standard hexcone formula stands in for it; the routing
claims are independent of its exact form. -/
def rgbFromHsv (v : Hsv) : Rgb :=
  let c := v.v * v.s
  let hp := rustRem v.h 360 / 60
  let x := c * (1 - |rustRem hp 2 - 1|)
  let base := rgbSector hp c x
  let m := v.v - c
  ⟨f32toU8 ((base.1 + m) * 255 + 0.5),
   f32toU8 ((base.2.1 + m) * 255 + 0.5),
   f32toU8 ((base.2.2 + m) * 255 + 0.5)⟩

/-- Embeds `impl From<Cmyk> for Hsv` (hsv.rs:407-414):
`Hsv::from(Rgb::from(cmyk))`. -/
def hsvFromCmyk (v : Cmyk) : Hsv := hsvFromRgb (rgbFromCmyk v)

/-- Embeds `impl From<Hsl> for Hsv` (hsv.rs:416-423):
`Hsv::from(Rgb::from(hsl))`. -/
def hsvFromHsl (v : Hsl) : Hsv := hsvFromRgb (rgbFromHsl v)

/-- Embeds `impl From<Cmyk> for Xyz` (xyz.rs:403-410):
`Xyz::from(Rgb::from(cmyk))`. -/
def xyzFromCmyk (v : Cmyk) : Xyz := xyzFromRgb (rgbFromCmyk v)

/-- Embeds `impl From<Hsl> for Xyz` (xyz.rs:412-419):
`Xyz::from(Rgb::from(hsl))`. -/
def xyzFromHsl (v : Hsl) : Xyz := xyzFromRgb (rgbFromHsl v)

/-- Embeds `impl From<Hsv> for Xyz` (xyz.rs:421-428):
`Xyz::from(Rgb::from(hsv))`. -/
def xyzFromHsv (v : Hsv) : Xyz := xyzFromRgb (rgbFromHsv v)

/-- Embeds `impl From<Hsl> for Cmyk` (cmyk.rs:619-626):
`Cmyk::from(Rgb::from(hsl))`. -/
def cmykFromHsl (v : Hsl) : Cmyk := cmykFromRgb (rgbFromHsl v)

/-- The Rgb-to-Cmyk conversion exactly as the specification words it:
`max` is the plain maximum of the three channel ratios, the degenerate
branch returns pure black, and otherwise `k = 1 - max` and each of
c/m/y is `(1 - channel_ratio - k) / max`, all four packed by
round-half-up (`x * 255 + 0.5` truncated). -/
def cmykFromRgbSpec (rgb : Rgb) : Cmyk :=
  let mx := max rgb.rr (max rgb.rg rgb.rb)
  if nearlyEqual mx 0 then ⟨0, 0, 0, 255⟩
  else
    let kq := 1 - mx
    ⟨f32toU8 ((1 - rgb.rr - kq) / mx * 255 + 0.5),
     f32toU8 ((1 - rgb.rg - kq) / mx * 255 + 0.5),
     f32toU8 ((1 - rgb.rb - kq) / mx * 255 + 0.5),
     f32toU8 (kq * 255 + 0.5)⟩

/-- The Rgb-to-Hsv conversion exactly as the specification words it:
plain max/min/delta, achromatic branch `(0, 0, max)` when
`delta ≈ 0`, saturation `delta / max` (forced to 0 when `max ≈ 0`),
value `max`, and hue = 60 degrees times the classic sector expression
for the channel attaining the maximum (red, then green, then blue),
with the modulo-6 wraparound on the red sector only. The result is
returned directly, without any further wrapping or clamping. -/
def hsvFromRgbSpec (rgb : Rgb) : Hsv :=
  let mx := max rgb.rr (max rgb.rg rgb.rb)
  let mn := min rgb.rr (min rgb.rg rgb.rb)
  let delta := mx - mn
  if nearlyEqual delta 0 then ⟨0, 0, mx⟩
  else
    let s := if nearlyEqual mx 0 then 0 else delta / mx
    let h := 60 * (if mx = rgb.rr then rustRem ((rgb.rg - rgb.rb) / delta) 6
                   else if mx = rgb.rg then (rgb.rb - rgb.rr) / delta + 2
                   else (rgb.rr - rgb.rg) / delta + 4)
    ⟨h, s, mx⟩

/-- The 3-D point the specification says `Hsv::distance` maps each
color to: `(2 v sin h, 2 v cos h, s)`. -/
def hsvPoint (sn cn : ℚ → ℚ) (c : Hsv) : ℚ × ℚ × ℚ :=
  (2 * c.v * sn c.h, 2 * c.v * cn c.h, c.s)

/-- The Hsv distance exactly as the specification words it: the
Euclidean norm of the difference of the two mapped 3-D points,
normalized by `sqrt 6`, with the same abstract transcendental
primitives as `hsvDistanceWith`. -/
def hsvDistanceSpec (sn cn sq : ℚ → ℚ) (a b : Hsv) : ℚ :=
  let p := hsvPoint sn cn a
  let q := hsvPoint sn cn b
  sq ((p.1 - q.1) ^ 2 + (p.2.1 - q.2.1) ^ 2 + (p.2.2 - q.2.2) ^ 2) / sq 6

/-- The naive component-wise Euclidean distance over `(h, s, v)` that
the specification says `Hsv::distance` is not. -/
def hsvNaiveDist (sq : ℚ → ℚ) (a b : Hsv) : ℚ :=
  sq ((a.h - b.h) ^ 2 + (a.s - b.s) ^ 2 + (a.v - b.v) ^ 2)

/-- A `u8` channel ratio is nonnegative. -/
theorem ratio_nonneg (n : Fin 256) : 0 ≤ (n.val : ℚ) / 255 := by positivity

/-- A `u8` channel ratio is at most one. -/
theorem ratio_le_one (n : Fin 256) : (n.val : ℚ) / 255 ≤ 1 := by
  rw [div_le_one (by norm_num)]
  exact_mod_cast Nat.le_of_lt_succ n.isLt

/-- Clamping an in-range value is the identity. -/
theorem clamped_of_mem {v lo hi : ℚ} (h1 : lo ≤ v) (h2 : v ≤ hi) :
    clamped v lo hi = v := by
  unfold clamped
  rw [if_neg (not_lt.mpr h1), if_neg (not_lt.mpr h2)]

/-- The clamped value lies inside the clamping interval. -/
theorem clamped_mem {lo hi : ℚ} (v : ℚ) (h : lo ≤ hi) :
    lo ≤ clamped v lo hi ∧ clamped v lo hi ≤ hi := by
  unfold clamped
  split_ifs <;> constructor <;> linarith

/-- Truncation toward zero vanishes strictly inside `(-1, 1)`. -/
theorem ratTrunc_eq_zero {q : ℚ} (h1 : -1 < q) (h2 : q < 1) : ratTrunc q = 0 := by
  unfold ratTrunc
  split_ifs with h
  · exact Int.floor_eq_zero_iff.mpr (Set.mem_Ico.mpr ⟨h, h2⟩)
  · exact Int.ceil_eq_zero_iff.mpr (Set.mem_Ioc.mpr ⟨h1, le_of_not_le fun hq => h (le_trans hq (le_refl q))⟩)

/-- Rust float remainder is the identity strictly inside `(-b, b)`. -/
theorem rustRem_eq_self {a b : ℚ} (hb : 0 < b) (h1 : -b < a) (h2 : a < b) :
    rustRem a b = a := by
  have h3 : -1 < a / b := by
    rw [lt_div_iff hb]; linarith
  have h4 : a / b < 1 := by
    rw [div_lt_one hb]; linarith
  unfold rustRem
  rw [ratTrunc_eq_zero h3 h4]
  push_cast
  ring

/-- Rust float remainder by a positive modulus lies strictly inside
`(-b, b)`. -/
theorem rustRem_bounds (a : ℚ) {b : ℚ} (hb : 0 < b) :
    -b < rustRem a b ∧ rustRem a b < b := by
  have hba : b * (a / b) = a := by field_simp
  unfold rustRem ratTrunc
  split_ifs with h
  · have hf1 : ((⌊a / b⌋ : ℚ)) ≤ a / b := Int.floor_le _
    have hf2 : a / b < (⌊a / b⌋ : ℚ) + 1 := Int.lt_floor_add_one _
    have hm1 : b * ((⌊a / b⌋ : ℚ)) ≤ b * (a / b) :=
      mul_le_mul_of_nonneg_left hf1 hb.le
    have hm2 : b * (a / b) < b * ((⌊a / b⌋ : ℚ) + 1) :=
      mul_lt_mul_of_pos_left hf2 hb
    constructor <;> nlinarith
  · have hf1 : a / b ≤ ((⌈a / b⌉ : ℚ)) := Int.le_ceil _
    have hf2 : ((⌈a / b⌉ : ℚ)) < a / b + 1 := Int.ceil_lt_add_one _
    have hm1 : b * (a / b) ≤ b * ((⌈a / b⌉ : ℚ)) :=
      mul_le_mul_of_nonneg_left hf1 hb.le
    have hm2 : b * ((⌈a / b⌉ : ℚ)) < b * (a / b + 1) :=
      mul_lt_mul_of_pos_left hf2 hb
    constructor <;> nlinarith

/-- Closed form of the max fold in `Cmyk::from<Rgb>`. -/
theorem cmykMaxFold_eq (a b c : ℚ) :
    cmykMaxFold a [a, b, c] = max a (max b c) := by
  have step : ∀ m x : ℚ, (if x > m then x else m) = max m x := by
    intro m x
    rcases le_or_lt x m with h | h
    · rw [if_neg (not_lt.mpr h), max_eq_left h]
    · rw [if_pos h, max_eq_right h.le]
  unfold cmykMaxFold
  simp only [List.foldl, step]
  rw [max_self, max_assoc]

/-- The fold step of `Hsv::from<Rgb>` on a new strict minimum. -/
theorem hsvFoldStep_lt {mn mx x : ℚ} (i cnt : ℕ) (h1 : x < mn) (h2 : x ≤ mx) :
    hsvFoldStep (mn, mx, i, cnt) x = (x, mx, i, cnt + 1) := by
  unfold hsvFoldStep
  rw [if_pos ⟨h1, not_lt.mpr h2⟩]

/-- The fold step of `Hsv::from<Rgb>` on a new strict maximum. -/
theorem hsvFoldStep_gt {mn mx x : ℚ} (i cnt : ℕ) (h1 : mn ≤ x) (h2 : mx < x) :
    hsvFoldStep (mn, mx, i, cnt) x = (mn, x, cnt, cnt + 1) := by
  unfold hsvFoldStep
  rw [if_neg fun hc => absurd hc.1 (not_lt.mpr h1), if_pos ⟨not_lt.mpr h1, h2⟩]

/-- The fold step of `Hsv::from<Rgb>` on an element between the bounds. -/
theorem hsvFoldStep_mid {mn mx x : ℚ} (i cnt : ℕ) (h1 : mn ≤ x) (h2 : x ≤ mx) :
    hsvFoldStep (mn, mx, i, cnt) x = (mn, mx, i, cnt + 1) := by
  unfold hsvFoldStep
  rw [if_neg fun hc => absurd hc.1 (not_lt.mpr h1),
      if_neg fun hc => absurd hc.2 (not_lt.mpr h2)]

/-- Closed form of the min/max/index fold in `Hsv::from<Rgb>`: the
minimum, the maximum, and the index of the first channel attaining
the maximum. -/
theorem hsvFold_eq (a b c : ℚ) :
    List.foldl hsvFoldStep (a, a, 0, 0) [a, b, c] =
      (min a (min b c), max a (max b c),
       if max a (max b c) = a then 0 else if max a (max b c) = b then 1 else 2, 3) := by
  show hsvFoldStep (hsvFoldStep (hsvFoldStep (a, a, 0, 0) a) b) c = _
  rw [hsvFoldStep_mid 0 0 le_rfl le_rfl]
  rcases lt_trichotomy b a with hba | hba | hba
  · rw [hsvFoldStep_lt 0 1 hba hba.le]
    rcases lt_trichotomy c b with hcb | hcb | hcb
    · rw [hsvFoldStep_lt 0 2 hcb (by linarith)]
      simp only [min_def, max_def]
      split_ifs <;> simp_all <;> linarith
    · rw [hsvFoldStep_mid 0 2 hcb.ge (by linarith)]
      simp only [min_def, max_def]
      split_ifs <;> simp_all <;> linarith
    · rcases lt_trichotomy c a with hca | hca | hca
      · rw [hsvFoldStep_mid 0 2 hcb.le hca.le]
        simp only [min_def, max_def]
        split_ifs <;> simp_all <;> linarith
      · rw [hsvFoldStep_mid 0 2 hcb.le hca.le]
        simp only [min_def, max_def]
        split_ifs <;> simp_all <;> linarith
      · rw [hsvFoldStep_gt 0 2 (by linarith) hca]
        simp only [min_def, max_def]
        split_ifs <;> simp_all <;> linarith
  · rw [hsvFoldStep_mid 0 1 hba.ge hba.le]
    rcases lt_trichotomy c a with hca | hca | hca
    · rw [hsvFoldStep_lt 0 2 hca hca.le]
      simp only [min_def, max_def]
      split_ifs <;> simp_all <;> linarith
    · rw [hsvFoldStep_mid 0 2 hca.ge hca.le]
      simp only [min_def, max_def]
      split_ifs <;> simp_all <;> linarith
    · rw [hsvFoldStep_gt 0 2 hca.le hca]
      simp only [min_def, max_def]
      split_ifs <;> simp_all <;> linarith
  · rw [hsvFoldStep_gt 0 1 hba.le hba]
    rcases lt_trichotomy c a with hca | hca | hca
    · rw [hsvFoldStep_lt 1 2 hca (by linarith)]
      simp only [min_def, max_def]
      split_ifs <;> simp_all <;> linarith
    · rw [hsvFoldStep_mid 1 2 hca.ge (by linarith)]
      simp only [min_def, max_def]
      split_ifs <;> simp_all <;> linarith
    · rcases lt_trichotomy c b with hcb | hcb | hcb
      · rw [hsvFoldStep_mid 1 2 hca.le hcb.le]
        simp only [min_def, max_def]
        split_ifs <;> simp_all <;> linarith
      · rw [hsvFoldStep_mid 1 2 hca.le hcb.le]
        simp only [min_def, max_def]
        split_ifs <;> simp_all <;> linarith
      · rw [hsvFoldStep_gt 1 2 (by linarith) hcb]
        simp only [min_def, max_def]
        split_ifs <;> simp_all <;> linarith

/-- With an in-range hue, saturation, and value, `Hsv::new` stores its
arguments unchanged. -/
theorem hsvNewQ_eq_mk {h s v : ℚ} (hh1 : -360 < h) (hh2 : h < 360)
    (hs1 : 0 ≤ s) (hs2 : s ≤ 1) (hv1 : 0 ≤ v) (hv2 : v ≤ 1) :
    Hsv.newQ h s v = ⟨h, s, v⟩ := by
  unfold Hsv.newQ Hsv.setHue Hsv.setSaturation Hsv.setValue
  simp only
  rw [rustRem_eq_self (by norm_num) hh1 hh2, clamped_of_mem hs1 hs2,
      clamped_of_mem hv1 hv2]

/-- C5: `Xyz::from(rgb)` applies the fixed sRGB D65 matrix to the
`[0,1]` ratio form of the channels, with the coefficients the claim
lists; pure white maps within `1e-3` of `(0.9505, 1.0000, 1.0891)`. -/
theorem claim_C5_xyz_from_rgb_matrix :
    (∀ rgb : Rgb, xyzFromRgb rgb =
      ⟨0.4124564 * rgb.rr + 0.3575761 * rgb.rg + 0.1804375 * rgb.rb,
       0.2126729 * rgb.rr + 0.7151522 * rgb.rg + 0.0721750 * rgb.rb,
       0.0193339 * rgb.rr + 0.1191920 * rgb.rg + 0.9503041 * rgb.rb⟩) ∧
    |(xyzFromRgb ⟨255, 255, 255⟩).x - 0.9505| ≤ 1 / 1000 ∧
    |(xyzFromRgb ⟨255, 255, 255⟩).y - 1| ≤ 1 / 1000 ∧
    |(xyzFromRgb ⟨255, 255, 255⟩).z - 1.0891| ≤ 1 / 1000 := by
  have hval : ((255 : Fin 256).val : ℚ) = 255 := by
    norm_num [show (255 : Fin 256).val = 255 from rfl]
  refine ⟨fun rgb => ?_, ?_, ?_, ?_⟩
  · unfold xyzFromRgb
    simp only [Xyz.mk.injEq]
    refine ⟨by ring, by ring, by ring⟩
  all_goals
    simp only [xyzFromRgb, Rgb.rr, Rgb.rg, Rgb.rb, hval]
    rw [abs_le]
    constructor <;> norm_num

/-- C6: every conversion between two non-Rgb color types is the
composite through the Rgb hub, as the routing implementations state. -/
theorem claim_C6_hub_routing :
    (∀ v : Cmyk, hsvFromCmyk v = hsvFromRgb (rgbFromCmyk v) ∧
       xyzFromCmyk v = xyzFromRgb (rgbFromCmyk v)) ∧
    (∀ v : Hsl, cmykFromHsl v = cmykFromRgb (rgbFromHsl v) ∧
       hsvFromHsl v = hsvFromRgb (rgbFromHsl v) ∧
       xyzFromHsl v = xyzFromRgb (rgbFromHsl v)) ∧
    (∀ v : Hsv, xyzFromHsv v = xyzFromRgb (rgbFromHsv v)) :=
  ⟨fun _ => ⟨rfl, rfl⟩, fun _ => ⟨rfl, rfl, rfl⟩, fun _ => rfl⟩

/-- C7: `Hsv::set_hue` fails (panics) exactly on a non-finite hue; a
finite hue is stored modulo 360, so hue 361 reads back 1 and hue 267
reads back 267. -/
theorem claim_C7_set_hue_contract :
    (∀ (c : Hsv) (hue : F32), c.setHueChecked hue = none ↔ hue.isFinite = false) ∧
    (∀ (c : Hsv) (q : ℚ), c.setHueChecked (.val q) = some (c.setHue q)) ∧
    (∀ (c : Hsv) (q : ℚ), (c.setHue q).h = rustRem q 360) ∧
    (Hsv.setHue (Hsv.newQ 134 0.23 0.55) 267).h = 267 ∧
    (Hsv.newQ 361 0.5 0.5).h = 1 := by
  refine ⟨fun c hue => ?_, fun c q => rfl, fun c q => rfl, ?_, ?_⟩
  · cases hue <;> simp [Hsv.setHueChecked, F32.isFinite]
  · show rustRem 267 360 = 267
    exact rustRem_eq_self (by norm_num) (by norm_num) (by norm_num)
  · show rustRem 361 360 = 1
    unfold rustRem ratTrunc
    rw [if_pos (by norm_num : (0:ℚ) ≤ 361 / 360),
        show ⌊(361:ℚ)/360⌋ = 1 from Int.floor_eq_iff.mpr ⟨by norm_num, by norm_num⟩]
    norm_num

/-- C8: `Hsv::distance` computes the spec's polar mapping — the norm of
the difference of the `(2 v sin h, 2 v cos h, s)` points divided by
`sqrt 6` — for any implementations of sin, cos, and sqrt, and is not
the naive component-wise distance over `(h, s, v)`. -/
theorem claim_C8_distance_polar :
    (∀ (sn cn sq : ℚ → ℚ) (a b : Hsv),
       hsvDistanceWith sn cn sq a b = hsvDistanceSpec sn cn sq a b) ∧
    hsvDistanceWith (fun _ => 0) (fun _ => 1) id ⟨180, 1, 1⟩ ⟨0, 0, 0⟩ ≠
      hsvNaiveDist id ⟨180, 1, 1⟩ ⟨0, 0, 0⟩ := by
  refine ⟨fun sn cn sq a b => ?_, by norm_num [hsvDistanceWith, hsvNaiveDist]⟩
  unfold hsvDistanceWith hsvDistanceSpec hsvPoint
  simp only
  congr 2
  ring

/-- C10: `Hsv::new` delegates the hue to `set_hue`, so a non-finite hue
also panics, no Hsv with a non-finite hue is constructible through
`new`, and a finite hue is stored modulo 360 with saturation and value
clamped into `[0, 1]`. -/
theorem claim_C10_new_delegates_to_set_hue :
    (∀ s v : ℚ, Hsv.newChecked .nan s v = none ∧
       Hsv.newChecked .posInf s v = none ∧ Hsv.newChecked .negInf s v = none) ∧
    (∀ (q s v : ℚ), Hsv.newChecked (.val q) s v = some (Hsv.newQ q s v)) ∧
    (∀ (q s v : ℚ), (Hsv.newQ q s v).h = rustRem q 360 ∧
       (Hsv.newQ q s v).s = clamped s 0 1 ∧ (Hsv.newQ q s v).v = clamped v 0 1) ∧
    (∀ (q s v : ℚ), 0 ≤ (Hsv.newQ q s v).s ∧ (Hsv.newQ q s v).s ≤ 1 ∧
       0 ≤ (Hsv.newQ q s v).v ∧ (Hsv.newQ q s v).v ≤ 1) := by
  refine ⟨fun s v => ⟨rfl, rfl, rfl⟩, fun q s v => rfl,
    fun q s v => ⟨rfl, rfl, rfl⟩, fun q s v => ?_⟩
  have hs := clamped_mem s (show (0:ℚ) ≤ 1 by norm_num)
  have hv := clamped_mem v (show (0:ℚ) ≤ 1 by norm_num)
  exact ⟨hs.1, hs.2, hv.1, hv.2⟩

/-- Extracting one byte by mask, shift, and truncating cast equals the
arithmetic `u / 2^s % 256`. -/
theorem byte_extract (u s : ℕ) : (u &&& (255 <<< s)) >>> s = u / 2 ^ s % 256 := by
  apply Nat.eq_of_testBit_eq
  intro i
  rw [Nat.testBit_shiftRight, Nat.testBit_and, Nat.testBit_shiftLeft]
  rw [show (256 : ℕ) = 2 ^ 8 from by norm_num, Nat.testBit_mod_two_pow]
  rw [← Nat.shiftRight_eq_div_pow, Nat.testBit_shiftRight]
  have h1 : s + i - s = i := by omega
  have h2 : decide (s + i ≥ s) = true := by simp
  have h255 : (255 : ℕ).testBit i = decide (i < 8) := by
    rw [show (255 : ℕ) = 2 ^ 8 - 1 from by norm_num, Nat.testBit_two_pow_sub_one]
  rw [h1, h2, h255]
  simp [Bool.and_comm]

/-- Bitwise or of disjoint operands is addition. -/
theorem or_add_byte (a b : ℕ) (i : ℕ) (ha : 2 ^ i ∣ a) (hb : b < 2 ^ i) :
    a ||| b = a + b := by
  obtain ⟨q, rfl⟩ := ha
  rw [← Nat.mul_add_lt_is_or hb q]

/-- The packed hex code in base-256 positional form. -/
theorem cmykHex_arith (v : Cmyk) :
    v.hex = ((v.c.val * 256 + v.m.val) * 256 + v.y.val) * 256 + v.k.val := by
  obtain ⟨⟨c, hc⟩, ⟨m, hm⟩, ⟨y, hy⟩, ⟨k, hk⟩⟩ := v
  show ((c <<< 24 ||| m <<< 16) ||| y <<< 8) ||| k = _
  have e1 : c * 2 ^ 24 ||| m * 2 ^ 16 = c * 2 ^ 24 + m * 2 ^ 16 :=
    or_add_byte _ _ 24 ⟨c, by ring⟩ (by omega)
  have e2 : c * 2 ^ 24 + m * 2 ^ 16 ||| y * 2 ^ 8 = c * 2 ^ 24 + m * 2 ^ 16 + y * 2 ^ 8 :=
    or_add_byte _ _ 16 ⟨c * 2 ^ 8 + m, by ring⟩ (by omega)
  have e3 : c * 2 ^ 24 + m * 2 ^ 16 + y * 2 ^ 8 ||| k
      = c * 2 ^ 24 + m * 2 ^ 16 + y * 2 ^ 8 + k :=
    or_add_byte _ _ 8 ⟨c * 2 ^ 16 + m * 2 ^ 8 + y, by ring⟩ (by omega)
  rw [Nat.shiftLeft_eq, Nat.shiftLeft_eq, Nat.shiftLeft_eq, e1, e2, e3]
  ring

/-- The cyan mask as a shifted byte mask. -/
theorem mask24 : (0xFF000000 : ℕ) = 255 <<< 24 := by norm_num [Nat.shiftLeft_eq]

/-- The magenta mask as a shifted byte mask. -/
theorem mask16 : (0x00FF0000 : ℕ) = 255 <<< 16 := by norm_num [Nat.shiftLeft_eq]

/-- The yellow mask as a shifted byte mask. -/
theorem mask8 : (0x0000FF00 : ℕ) = 255 <<< 8 := by norm_num [Nat.shiftLeft_eq]

/-- The key mask keeps the low byte. -/
theorem mask0 (u : ℕ) : u &&& 0x000000FF = u % 256 := by
  rw [show (0x000000FF : ℕ) = 2 ^ 8 - 1 from by norm_num,
      Nat.and_pow_two_sub_one_eq_mod]

/-- C9: the packed 32-bit encoding is bit-exact with C most
significant — `hex` places c, m, y, k in descending byte positions,
and `Cmyk::from(u32)` extracts the same fields, so the two are
mutually inverse (on 32-bit inputs). -/
theorem claim_C9_packed_encoding :
    (∀ v : Cmyk, v.hex = ((v.c.val * 256 + v.m.val) * 256 + v.y.val) * 256 + v.k.val) ∧
    (∀ v : Cmyk, cmykFromU32 v.hex = v) ∧
    (∀ u : ℕ, u < 4294967296 → (cmykFromU32 u).hex = u) := by
  refine ⟨cmykHex_arith, fun v => ?_, fun u hu => ?_⟩
  · have ha := cmykHex_arith v
    obtain ⟨⟨c, hc⟩, ⟨m, hm⟩, ⟨y, hy⟩, ⟨k, hk⟩⟩ := v
    simp only at ha
    unfold cmykFromU32
    simp only [Cmyk.mk.injEq, Fin.mk.injEq, ha, mask24, mask16, mask8, mask0,
      byte_extract]
    norm_num
    refine ⟨?_, ?_, ?_, ?_⟩ <;> omega
  · rw [cmykHex_arith]
    have h1 : (cmykFromU32 u).c.val = (u &&& 0xFF000000) >>> 24 % 256 := rfl
    have h2 : (cmykFromU32 u).m.val = (u &&& 0x00FF0000) >>> 16 % 256 := rfl
    have h3 : (cmykFromU32 u).y.val = (u &&& 0x0000FF00) >>> 8 % 256 := rfl
    have h4 : (cmykFromU32 u).k.val = (u &&& 0x000000FF) % 256 := rfl
    rw [h1, h2, h3, h4, mask24, mask16, mask8, mask0, byte_extract, byte_extract,
      byte_extract]
    norm_num
    omega

/-- Witness for C9 at the doctest value `0x7FFF4064`. -/
theorem claim_C9_witness :
    (0x7FFF4064 : ℕ) < 4294967296 ∧ (cmykFromU32 0x7FFF4064).hex = 0x7FFF4064 ∧
      cmykFromU32 (Cmyk.hex ⟨127, 255, 64, 100⟩) = ⟨127, 255, 64, 100⟩ :=
  ⟨by norm_num, claim_C9_packed_encoding.2.2 _ (by norm_num),
    claim_C9_packed_encoding.2.1 _⟩

/-- C1: `Cmyk::from(rgb)` follows the claim's subtractive formula — the
code equals the formula worded by the spec (plain maximum, degenerate
black branch, `k = 1 - max`, `(1 - ratio - k) / max`), the 8-bit
packing is the claimed truncation of `x * 255 + 0.5` on the in-range
values, and an all-zero ratio maximum yields exactly `{0, 0, 0, 255}`. -/
theorem claim_C1_cmyk_from_rgb_subtractive :
    (∀ rgb : Rgb, cmykFromRgb rgb = cmykFromRgbSpec rgb) ∧
    (∀ x : ℚ, 0 ≤ x → x ≤ 1 →
       ((f32toU8 (x * 255 + 0.5)).val : ℤ) = ratTrunc (x * 255 + 0.5)) ∧
    (∀ rgb : Rgb, cmykMaxFold rgb.rr [rgb.rr, rgb.rg, rgb.rb] = 0 →
       cmykFromRgb rgb = ⟨0, 0, 0, 255⟩) := by
  refine ⟨fun rgb => ?_, fun x h0 h1 => ?_, fun rgb h => ?_⟩
  · unfold cmykFromRgb cmykFromRgbSpec
    rw [cmykMaxFold_eq]
  · have harg0 : (0:ℚ) ≤ x * 255 + 0.5 := by linarith
    have hfl0 : 0 ≤ ⌊x * 255 + 0.5⌋ := Int.floor_nonneg.mpr harg0
    have hfl255 : ⌊x * 255 + 0.5⌋ ≤ 255 := by
      have h2 : ⌊x * 255 + 0.5⌋ < (256:ℤ) := Int.floor_lt.mpr (by push_cast; linarith)
      omega
    unfold f32toU8 ratTrunc
    rw [if_neg (not_lt.mpr harg0), if_pos harg0]
    simp only
    rw [min_eq_right (by omega : ⌊x * 255 + 0.5⌋.toNat ≤ 255)]
    omega
  · unfold cmykFromRgb
    rw [h]
    norm_num [nearlyEqual, epsF32]

/-- Witness for C1 at the black input and the midpoint ratio. -/
theorem claim_C1_witness :
    ((0:ℚ) ≤ 1/2 ∧ (1/2 : ℚ) ≤ 1 ∧
      ((f32toU8 ((1/2) * 255 + 0.5)).val : ℤ) = ratTrunc ((1/2) * 255 + 0.5)) ∧
    cmykMaxFold (Rgb.mk 0 0 0).rr
        [(Rgb.mk 0 0 0).rr, (Rgb.mk 0 0 0).rg, (Rgb.mk 0 0 0).rb] = 0 ∧
    cmykFromRgb ⟨0, 0, 0⟩ = ⟨0, 0, 0, 255⟩ := by
  have hz : (Rgb.mk 0 0 0).rr = 0 ∧ (Rgb.mk 0 0 0).rg = 0 ∧ (Rgb.mk 0 0 0).rb = 0 := by
    refine ⟨?_, ?_, ?_⟩ <;>
      norm_num [Rgb.rr, Rgb.rg, Rgb.rb, show ((0 : Fin 256)).val = 0 from rfl]
  have hfold : cmykMaxFold (Rgb.mk 0 0 0).rr
      [(Rgb.mk 0 0 0).rr, (Rgb.mk 0 0 0).rg, (Rgb.mk 0 0 0).rb] = 0 := by
    rw [hz.1, hz.2.1, hz.2.2, cmykMaxFold_eq]
    norm_num
  exact ⟨⟨by norm_num, by norm_num,
      claim_C1_cmyk_from_rgb_subtractive.2.1 (1/2) (by norm_num) (by norm_num)⟩,
    hfold, claim_C1_cmyk_from_rgb_subtractive.2.2 ⟨0, 0, 0⟩ hfold⟩

/-- The hue produced by `Hsv::from<Rgb>` is either the achromatic zero
or the wrapped result of `Hsv::new`. -/
theorem hsvFromRgb_h_shape (rgb : Rgb) :
    (hsvFromRgb rgb).h = 0 ∨ ∃ q : ℚ, (hsvFromRgb rgb).h = rustRem q 360 := by
  unfold hsvFromRgb
  simp only
  split_ifs <;> first | (left; rfl) | (right; exact ⟨_, rfl⟩)

/-- C2 counterexample: the claim says every produced hue lies in
`[0, 360)`, but `Hsv::from(Rgb {255, 0, 255})` (red and blue maximal,
green zero) lands in the red-max sector where `(g - b) / delta = -1`,
and Rust's sign-preserving `%` leaves the hue at `-60`. -/
theorem claim_C2_counterexample_negative_hue : (hsvFromRgb ⟨255, 0, 255⟩).h < 0 := by
  have h1 : (Rgb.mk 255 0 255).rr = 1 := by
    norm_num [Rgb.rr, show ((255 : Fin 256)).val = 255 from rfl]
  have h2 : (Rgb.mk 255 0 255).rg = 0 := by
    norm_num [Rgb.rg, show ((0 : Fin 256)).val = 0 from rfl]
  have h3 : (Rgb.mk 255 0 255).rb = 1 := by
    norm_num [Rgb.rb, show ((255 : Fin 256)).val = 255 from rfl]
  unfold hsvFromRgb
  rw [h1, h2, h3, hsvFold_eq]
  norm_num
  rw [show nearlyEqual 1 0 = false from by norm_num [nearlyEqual, epsF32]]
  simp only [Bool.false_eq_true, if_false]
  rw [show rustRem (-1 : ℚ) 6 = -1 from
    rustRem_eq_self (by norm_num) (by norm_num) (by norm_num)]
  show rustRem (60 * -1) 360 < 0
  rw [show (60:ℚ) * -1 = -60 by norm_num]
  rw [rustRem_eq_self (by norm_num) (by norm_num) (by norm_num)]
  norm_num

/-- C2 amended: every hue produced by construction, mutation, or
conversion from Rgb lies in the open interval `(-360, 360)` — wrapping
uses Rust's sign-preserving remainder, so negative hues occur and
`[0, 360)` is not guaranteed. -/
theorem claim_C2_hue_range_amended :
    (∀ rgb : Rgb, -360 < (hsvFromRgb rgb).h ∧ (hsvFromRgb rgb).h < 360) ∧
    (∀ (c : Hsv) (q : ℚ), -360 < (c.setHue q).h ∧ (c.setHue q).h < 360) ∧
    (∀ (q s v : ℚ), -360 < (Hsv.newQ q s v).h ∧ (Hsv.newQ q s v).h < 360) := by
  have hrem : ∀ q : ℚ, -360 < rustRem q 360 ∧ rustRem q 360 < 360 := fun q =>
    rustRem_bounds q (by norm_num)
  refine ⟨fun rgb => ?_, fun c q => hrem q, fun q s v => hrem q⟩
  rcases hsvFromRgb_h_shape rgb with h | ⟨q, h⟩ <;> rw [h]
  · norm_num
  · exact hrem q

/-- C3 counterexample: the claim says every `From` conversion clamps
into `[0, 1]`, but `Xyz::from<[f32; 3]>` copies the components
verbatim and `Xyz::from<Rgb>` at pure white exceeds 1 on the z axis
(row sum ≈ 1.08883). -/
theorem claim_C3_counterexample_unclamped :
    1 < (xyzFromArr (2, 1/2, 1/2)).x ∧ 1 < (xyzFromRgb ⟨255, 255, 255⟩).z := by
  constructor
  · norm_num [xyzFromArr]
  · norm_num [xyzFromRgb, Rgb.rr, Rgb.rg, Rgb.rb,
      show ((255 : Fin 256)).val = 255 from rfl]

/-- A sum of three coefficient-weighted `[0,1]` ratios is bounded by
zero below and by the coefficient sum above. -/
theorem xyz_bound_component {a b c : ℚ} (k1 k2 k3 : ℚ)
    (hk1 : 0 ≤ k1) (hk2 : 0 ≤ k2) (hk3 : 0 ≤ k3)
    (ha1 : 0 ≤ a) (ha2 : a ≤ 1) (hb1 : 0 ≤ b) (hb2 : b ≤ 1)
    (hc1 : 0 ≤ c) (hc2 : c ≤ 1) :
    0 ≤ a * k1 + b * k2 + c * k3 ∧ a * k1 + b * k2 + c * k3 ≤ k1 + k2 + k3 := by
  have h1 : a * k1 ≤ k1 := mul_le_of_le_one_left hk1 ha2
  have h2 : b * k2 ≤ k2 := mul_le_of_le_one_left hk2 hb2
  have h3 : c * k3 ≤ k3 := mul_le_of_le_one_left hk3 hc2
  constructor
  · positivity
  · linarith

/-- C3 amended: `new` and the setters do clamp each axis into `[0, 1]`,
but the `From<[f32; 3]>` and `From<Rgb>` conversions do not clamp;
`From<Rgb>` outputs are only bounded by the matrix row sums
(`0.95047`, `1.0000001`, `1.08883`). -/
theorem claim_C3_xyz_range_amended :
    (∀ x y z : ℚ, 0 ≤ (Xyz.newQ x y z).x ∧ (Xyz.newQ x y z).x ≤ 1 ∧
       0 ≤ (Xyz.newQ x y z).y ∧ (Xyz.newQ x y z).y ≤ 1 ∧
       0 ≤ (Xyz.newQ x y z).z ∧ (Xyz.newQ x y z).z ≤ 1) ∧
    (∀ (c : Xyz) (q : ℚ), 0 ≤ (c.setX q).x ∧ (c.setX q).x ≤ 1 ∧
       0 ≤ (c.setY q).y ∧ (c.setY q).y ≤ 1 ∧
       0 ≤ (c.setZ q).z ∧ (c.setZ q).z ≤ 1) ∧
    (∀ rgb : Rgb, 0 ≤ (xyzFromRgb rgb).x ∧ (xyzFromRgb rgb).x ≤ 0.95047 ∧
       0 ≤ (xyzFromRgb rgb).y ∧ (xyzFromRgb rgb).y ≤ 1.0000001 ∧
       0 ≤ (xyzFromRgb rgb).z ∧ (xyzFromRgb rgb).z ≤ 1.08883) := by
  have h01 : (0:ℚ) ≤ 1 := by norm_num
  refine ⟨fun x y z => ?_, fun c q => ?_, fun rgb => ?_⟩
  · obtain ⟨e1, e2⟩ := clamped_mem x h01
    obtain ⟨e3, e4⟩ := clamped_mem y h01
    obtain ⟨e5, e6⟩ := clamped_mem z h01
    exact ⟨e1, e2, e3, e4, e5, e6⟩
  · obtain ⟨e1, e2⟩ := clamped_mem q h01
    exact ⟨e1, e2, e1, e2, e1, e2⟩
  · unfold xyzFromRgb
    dsimp only
    have ha : 0 ≤ rgb.rr ∧ rgb.rr ≤ 1 := ⟨ratio_nonneg _, ratio_le_one _⟩
    have hb : 0 ≤ rgb.rg ∧ rgb.rg ≤ 1 := ⟨ratio_nonneg _, ratio_le_one _⟩
    have hc : 0 ≤ rgb.rb ∧ rgb.rb ≤ 1 := ⟨ratio_nonneg _, ratio_le_one _⟩
    have e1 := xyz_bound_component 0.4124564 0.3575761 0.1804375
      (by norm_num) (by norm_num) (by norm_num) ha.1 ha.2 hb.1 hb.2 hc.1 hc.2
    have e2 := xyz_bound_component 0.2126729 0.7151522 0.0721750
      (by norm_num) (by norm_num) (by norm_num) ha.1 ha.2 hb.1 hb.2 hc.1 hc.2
    have e3 := xyz_bound_component 0.0193339 0.1191920 0.9503041
      (by norm_num) (by norm_num) (by norm_num) ha.1 ha.2 hb.1 hb.2 hc.1 hc.2
    refine ⟨e1.1, ?_, e2.1, ?_, e3.1, ?_⟩
    · have h := e1.2
      norm_num at h ⊢
      linarith
    · have h := e2.2
      norm_num at h ⊢
      linarith
    · have h := e3.2
      norm_num at h ⊢
      linarith

/-- C4: `Hsv::from(rgb)` equals the spec's max/min/delta hexcone
algorithm exactly as worded — achromatic branch, saturation guard,
value `max`, and the 60-degree sector formula with modulo-6 wraparound
on the red sector only, with no further wrapping or clamping. -/
theorem claim_C4_hsv_from_rgb_hexcone : ∀ rgb : Rgb, hsvFromRgb rgb = hsvFromRgbSpec rgb := by
  intro rgb
  have ha : 0 ≤ rgb.rr ∧ rgb.rr ≤ 1 := ⟨ratio_nonneg _, ratio_le_one _⟩
  have hb : 0 ≤ rgb.rg ∧ rgb.rg ≤ 1 := ⟨ratio_nonneg _, ratio_le_one _⟩
  have hc : 0 ≤ rgb.rb ∧ rgb.rb ≤ 1 := ⟨ratio_nonneg _, ratio_le_one _⟩
  unfold hsvFromRgb hsvFromRgbSpec
  rw [hsvFold_eq]
  dsimp only
  set M := max rgb.rr (max rgb.rg rgb.rb) with hMdef
  set N := min rgb.rr (min rgb.rg rgb.rb) with hNdef
  have hM1 : rgb.rr ≤ M := le_max_left _ _
  have hM2 : rgb.rg ≤ M := le_trans (le_max_left _ _) (le_max_right _ _)
  have hM3 : rgb.rb ≤ M := le_trans (le_max_right _ _) (le_max_right _ _)
  have hN1 : N ≤ rgb.rr := min_le_left _ _
  have hN2 : N ≤ rgb.rg := le_trans (min_le_right _ _) (min_le_left _ _)
  have hN3 : N ≤ rgb.rb := le_trans (min_le_right _ _) (min_le_right _ _)
  have hM0 : 0 ≤ M := le_trans ha.1 hM1
  have hMle1 : M ≤ 1 := max_le ha.2 (max_le hb.2 hc.2)
  have hN0 : 0 ≤ N := le_min ha.1 (le_min hb.1 hc.1)
  by_cases hd : nearlyEqual (M - N) 0 = true
  · rw [if_pos hd, if_pos hd]
  · rw [if_neg hd, if_neg hd]
    have heps : (0:ℚ) < epsF32 := by norm_num [epsF32]
    have hdpos : 0 < M - N := by
      have h1 : ¬ |M - N - 0| < epsF32 := by simpa [nearlyEqual] using hd
      rw [sub_zero] at h1
      have h2 : epsF32 ≤ |M - N| := not_lt.mp h1
      rw [abs_of_nonneg (by linarith : (0:ℚ) ≤ M - N)] at h2
      linarith
    have hS : 0 ≤ (if nearlyEqual M 0 = true then (0:ℚ) else (M - N) / M) ∧
        (if nearlyEqual M 0 = true then (0:ℚ) else (M - N) / M) ≤ 1 := by
      split_ifs with hm
      · norm_num
      · have h1 : ¬ |M - 0| < epsF32 := by simpa [nearlyEqual] using hm
        rw [sub_zero] at h1
        have h2 : epsF32 ≤ |M| := not_lt.mp h1
        rw [abs_of_nonneg hM0] at h2
        have hMpos : 0 < M := by linarith
        constructor
        · exact div_nonneg (by linarith) hMpos.le
        · rw [div_le_one hMpos]
          linarith
    by_cases hr : M = rgb.rr
    · simp only [if_pos hr, eq_self_iff_true, if_true]
      obtain ⟨u1, u2⟩ := rustRem_bounds ((rgb.rg - rgb.rb) / (M - N))
        (show (0:ℚ) < 6 by norm_num)
      exact hsvNewQ_eq_mk (by linarith) (by linarith) hS.1 hS.2 hM0 hMle1
    · by_cases hg : M = rgb.rg
      · simp only [if_neg hr, if_pos hg, if_neg (by norm_num : ¬(1:ℕ) = 0),
          eq_self_iff_true, if_true]
        have hq1 : (rgb.rb - rgb.rr) / (M - N) ≤ 1 := by
          rw [div_le_one hdpos]
          linarith
        have hq2 : (-1:ℚ) ≤ (rgb.rb - rgb.rr) / (M - N) := by
          rw [le_div_iff hdpos]
          linarith
        exact hsvNewQ_eq_mk (by linarith) (by linarith) hS.1 hS.2 hM0 hMle1
      · simp only [if_neg hr, if_neg hg, if_neg (by norm_num : ¬(2:ℕ) = 0),
          if_neg (by norm_num : ¬(2:ℕ) = 1)]
        have hq1 : (rgb.rr - rgb.rg) / (M - N) ≤ 1 := by
          rw [div_le_one hdpos]
          linarith
        have hq2 : (-1:ℚ) ≤ (rgb.rr - rgb.rg) / (M - N) := by
          rw [le_div_iff hdpos]
          linarith
        exact hsvNewQ_eq_mk (by linarith) (by linarith) hS.1 hS.2 hM0 hMle1

end ColorRs
